import Mathlib

/-!
Verification of `machine_simulation/simulation.py`.

The Python code runs on IEEE doubles and Python ints; `ComponentStock` is built
with `capacity=float('inf')` by default and all arithmetic on costs, levels and
times is ordinary Python numeric arithmetic.  We model the numeric values by a
four-point extension `Fl` of the rationals (finite value, +inf, -inf, nan) with
the IEEE rules for the operations the code performs, and the event-driven
`simpy` dynamics of a `ComponentStock` by an explicit labelled transition
system whose atomic steps are the pieces of code the cooperative scheduler
runs without interruption.
-/

set_option maxHeartbeats 1000000

namespace MachineSim

/-- IEEE-style numeric value: a rational, an infinity, or nan. -/
inductive Fl where
  | nan : Fl
  | pinf : Fl
  | ninf : Fl
  | fin : ℚ → Fl
deriving DecidableEq

def Fl.neg : Fl → Fl
  | nan => nan
  | pinf => ninf
  | ninf => pinf
  | fin q => fin (-q)

def Fl.add : Fl → Fl → Fl
  | nan, _ => nan
  | _, nan => nan
  | pinf, ninf => nan
  | ninf, pinf => nan
  | pinf, _ => pinf
  | _, pinf => pinf
  | ninf, _ => ninf
  | _, ninf => ninf
  | fin a, fin b => fin (a + b)

def Fl.sub (a b : Fl) : Fl := a.add b.neg

def Fl.mul : Fl → Fl → Fl
  | nan, _ => nan
  | _, nan => nan
  | pinf, pinf => pinf
  | pinf, ninf => ninf
  | ninf, pinf => ninf
  | ninf, ninf => pinf
  | pinf, fin b => if b = 0 then nan else if 0 < b then pinf else ninf
  | fin a, pinf => if a = 0 then nan else if 0 < a then pinf else ninf
  | ninf, fin b => if b = 0 then nan else if 0 < b then ninf else pinf
  | fin a, ninf => if a = 0 then nan else if 0 < a then ninf else pinf
  | fin a, fin b => fin (a * b)

/-- IEEE comparison `a <= b` (false on nan). -/
def Fl.le : Fl → Fl → Bool
  | nan, _ => false
  | _, nan => false
  | ninf, _ => true
  | _, pinf => true
  | pinf, _ => false
  | fin _, ninf => false
  | fin a, fin b => decide (a ≤ b)

/-- Python truthiness of a number (`if self.in_order:`): zero is falsy. -/
def Fl.truthy : Fl → Bool
  | fin q => decide (q ≠ 0)
  | _ => true

@[simp] theorem Fl.add_fin_fin (a b : ℚ) : (Fl.fin a).add (Fl.fin b) = Fl.fin (a + b) := rfl
@[simp] theorem Fl.sub_fin_fin (a b : ℚ) : (Fl.fin a).sub (Fl.fin b) = Fl.fin (a - b) := by
  show (Fl.fin a).add (Fl.fin (-b)) = Fl.fin (a - b)
  rw [Fl.add_fin_fin, sub_eq_add_neg]
@[simp] theorem Fl.mul_fin_fin (a b : ℚ) : (Fl.fin a).mul (Fl.fin b) = Fl.fin (a * b) := rfl
@[simp] theorem Fl.le_fin_fin (a b : ℚ) : (Fl.fin a).le (Fl.fin b) = decide (a ≤ b) := rfl
@[simp] theorem Fl.truthy_fin (a : ℚ) : (Fl.fin a).truthy = decide (a ≠ 0) := rfl
@[simp] theorem Fl.add_pinf_fin (b : ℚ) : Fl.pinf.add (Fl.fin b) = Fl.pinf := rfl
@[simp] theorem Fl.sub_pinf_fin (b : ℚ) : Fl.pinf.sub (Fl.fin b) = Fl.pinf := rfl
@[simp] theorem Fl.le_fin_pinf (a : ℚ) : (Fl.fin a).le Fl.pinf = true := rfl
@[simp] theorem Fl.le_pinf_pinf : Fl.pinf.le Fl.pinf = true := rfl
@[simp] theorem Fl.mul_fin_pinf (a : ℚ) :
    (Fl.fin a).mul Fl.pinf = if a = 0 then Fl.nan else if 0 < a then Fl.pinf else Fl.ninf := rfl
@[simp] theorem Fl.nan_mul (a : Fl) : Fl.nan.mul a = Fl.nan := by cases a <;> rfl
@[simp] theorem Fl.add_nan (a : Fl) : a.add Fl.nan = Fl.nan := by cases a <;> rfl

/--
State of a `ComponentStock` (simulation.py lines 8-63).  The class attributes
(lines 12-15) and constructor arguments (lines 17-29) are all carried here;
`orders` is the multiset of outstanding replenishment orders of the spawned
`order` processes, as (amount, delivery due time) pairs in the order the
processes were started, and `pending` is the FIFO queue of waiting get events
of the underlying `simpy.Container`.
-/
structure Stock where
  capacity : Fl
  unit_purchase_costs : Fl
  delivery_time : ℚ
  unit_holding_costs : Fl
  level : Fl
  in_order : Fl
  purchase_costs : Fl
  inventory_holding_costs_saved : Fl
  last_order_at : ℚ
  now : ℚ
  orders : List (ℚ × ℚ)
  pending : List ℚ
deriving DecidableEq

/-- `ComponentStock.__init__` (lines 17-29): the container starts full
(`init=capacity`, line 25); the cost accumulators are the class attributes of
lines 12-15. -/
def ComponentStock.init (unit_purchase_costs : Fl) (delivery_time : ℚ)
    (unit_holding_costs : Fl) (capacity : Fl := Fl.pinf) : Stock :=
  { capacity := capacity
    unit_purchase_costs := unit_purchase_costs
    delivery_time := delivery_time
    unit_holding_costs := unit_holding_costs
    level := capacity
    in_order := Fl.fin 0
    purchase_costs := Fl.fin 0
    inventory_holding_costs_saved := Fl.fin 0
    last_order_at := 0
    now := 0
    orders := []
    pending := [] }

/-- `ComponentStock.inventory_holding_costs` (lines 31-36). -/
def Stock.inventory_holding_costs (s : Stock) : Fl :=
  let costs := ((Fl.fin s.now).mul s.unit_holding_costs).sub s.inventory_holding_costs_saved
  if s.in_order.truthy then
    costs.sub
      ((((Fl.fin s.now).sub (Fl.fin s.last_order_at)).mul (s.capacity.sub s.in_order)).mul
        s.unit_holding_costs)
  else costs

/--
One pass of the container over the head of its get queue.  The overridden
`_do_get` (lines 41-52) returns `None`, so each trigger attempts only the
first queued event.  On success this runs, at the same simulated instant,
lines 47-51 of `_do_get` together with the first segment (lines 59-60) of the
`order` process it spawns: `last_order_at` is assigned `env.now` on line 47
before the saved increment of lines 49-50 reads it back, so the increment
multiplies by `env.now - env.now`.
-/
def Stock.trigger_get (s : Stock) : Stock :=
  match s.pending with
  | [] => s
  | n :: rest =>
    if (Fl.fin n).le s.level then
      { s with
        pending := rest
        last_order_at := s.now
        inventory_holding_costs_saved :=
          s.inventory_holding_costs_saved.add
            ((((Fl.fin s.now).sub (Fl.fin s.now)).mul (s.capacity.sub (Fl.fin n))).mul
              s.unit_holding_costs)
        level := s.level.sub (Fl.fin n)
        in_order := s.in_order.add (Fl.fin n)
        purchase_costs := s.purchase_costs.add ((Fl.fin n).mul s.unit_purchase_costs)
        orders := s.orders ++ [(n, s.now + s.delivery_time)] }
    else s

/-- `ComponentStock.get` (lines 38-39): the new get event joins the FIFO queue
and the container immediately attempts its head. -/
def Stock.get (s : Stock) (n : ℚ) : Stock :=
  Stock.trigger_get { s with pending := s.pending ++ [n] }

/-- Resumption of an `order` process after its delivery timeout
(lines 61-63): `in_order -= amount`, then `put(amount)`; the successful put
triggers one pass over the get queue. -/
def Stock.deliver (s : Stock) : Stock :=
  match s.orders with
  | [] => s
  | (n, _) :: rest =>
    Stock.trigger_get
      { s with orders := rest
               in_order := s.in_order.sub (Fl.fin n)
               level := s.level.add (Fl.fin n) }

/-- Pure passing of simulated time with no event of this stock in between. -/
def Stock.advance (s : Stock) (dt : ℚ) : Stock := { s with now := s.now + dt }

/--
`env.run(until=t)` restricted to this stock: fire every outstanding delivery
that falls due by `t` (in process-start order, which is their due order in the
runs we study), then leave the clock at `t`.  The fuel argument bounds the
number of deliveries; every delivery strictly decreases
`orders.length + pending.length`, so `orders.length + pending.length` is
always enough fuel.  A delivery whose put would overfill the container would
block in simpy; such a state is never reached in the runs proved below.
-/
def Stock.advanceToF : ℕ → Stock → ℚ → Stock
  | 0, s, t => { s with now := t }
  | fuel + 1, s, t =>
    match s.orders with
    | [] => { s with now := t }
    | (n, due) :: _ =>
      if due ≤ t then
        if (s.level.add (Fl.fin n)).le s.capacity then
          Stock.advanceToF fuel (Stock.deliver { s with now := due }) t
        else { s with now := t }
      else { s with now := t }

def Stock.advanceTo (s : Stock) (t : ℚ) : Stock :=
  Stock.advanceToF (s.orders.length + s.pending.length) s t

/--
Atomic steps of a `ComponentStock` under the cooperative scheduler: time
passing, a `get` request arriving, and an outstanding order being delivered
once its due time has been reached (the put must fit below capacity, otherwise
the order process stays blocked).  The relation permits every interleaving the
scheduler can produce (and more: time may also pass a due delivery), so an
invariant of all its reachable states holds in particular at every instant of
every actual run.
-/
inductive Stock.Step : Stock → Stock → Prop
  | advance (s : Stock) (dt : ℚ) (h : 0 ≤ dt) : Stock.Step s (s.advance dt)
  | get (s : Stock) (n : ℚ) (h : 0 < n) : Stock.Step s (s.get n)
  | deliver (s : Stock) (n due : ℚ) (rest : List (ℚ × ℚ))
      (ho : s.orders = (n, due) :: rest) (hd : due ≤ s.now)
      (hf : (s.level.add (Fl.fin n)).le s.capacity = true) :
      Stock.Step s s.deliver

def StockReach (s₀ s : Stock) : Prop := Relation.ReflTransGen Stock.Step s₀ s

/-- Runs of a stock from which nothing is ever withdrawn: only time passes. -/
def QuietReach (s₀ s : Stock) : Prop :=
  Relation.ReflTransGen (fun a b => ∃ dt : ℚ, 0 ≤ dt ∧ b = a.advance dt) s₀ s

/-- Total amount of the outstanding replenishment orders. -/
def orderSum (l : List (ℚ × ℚ)) : ℚ := (l.map Prod.fst).sum

@[simp] theorem orderSum_nil : orderSum [] = 0 := rfl
@[simp] theorem orderSum_cons (p : ℚ × ℚ) (l : List (ℚ × ℚ)) :
    orderSum (p :: l) = p.1 + orderSum l := by
  simp [orderSum]
@[simp] theorem orderSum_append (l₁ l₂ : List (ℚ × ℚ)) :
    orderSum (l₁ ++ l₂) = orderSum l₁ + orderSum l₂ := by
  simp [orderSum]

theorem orderSum_nonneg {l : List (ℚ × ℚ)} (h : ∀ p ∈ l, 0 < p.1) : 0 ≤ orderSum l := by
  induction l with
  | nil => simp
  | cons p l ih =>
    have hp := h p (by simp)
    have hl : 0 ≤ orderSum l := ih (fun q hq => h q (by simp [hq]))
    simp only [orderSum_cons]
    linarith

/--
The inductive invariant of a finite-capacity stock: the level and the
in-transit count are finite, the level is non-negative, their sum is exactly
the order-up-to level `C`, the in-transit count is the total of the
outstanding orders, the saved holding-cost accumulator is zero, and all queued
amounts are positive.
-/
def Good (C : ℚ) (s : Stock) : Prop :=
  s.capacity = Fl.fin C ∧
  (∃ hc : ℚ, s.unit_holding_costs = Fl.fin hc) ∧
  (∃ l io : ℚ, s.level = Fl.fin l ∧ s.in_order = Fl.fin io ∧
      0 ≤ l ∧ l + io = C ∧ io = orderSum s.orders) ∧
  s.inventory_holding_costs_saved = Fl.fin 0 ∧
  (∀ p ∈ s.orders, 0 < p.1) ∧ (∀ n ∈ s.pending, 0 < n)

/-- Unfolding equation: empty get queue, nothing to trigger. -/
theorem trigger_get_eq_nil {s : Stock} (hp : s.pending = []) : s.trigger_get = s := by
  unfold Stock.trigger_get
  rw [hp]

/-- Unfolding equation: the head get event fires. -/
theorem trigger_get_eq_fire {s : Stock} {n : ℚ} {rest : List ℚ}
    (hp : s.pending = n :: rest) (hle : (Fl.fin n).le s.level = true) :
    s.trigger_get =
      { s with
        pending := rest
        last_order_at := s.now
        inventory_holding_costs_saved :=
          s.inventory_holding_costs_saved.add
            ((((Fl.fin s.now).sub (Fl.fin s.now)).mul (s.capacity.sub (Fl.fin n))).mul
              s.unit_holding_costs)
        level := s.level.sub (Fl.fin n)
        in_order := s.in_order.add (Fl.fin n)
        purchase_costs := s.purchase_costs.add ((Fl.fin n).mul s.unit_purchase_costs)
        orders := s.orders ++ [(n, s.now + s.delivery_time)] } := by
  unfold Stock.trigger_get
  rw [hp]
  simp only [hle, if_true]

/-- Unfolding equation: the head get event cannot be satisfied and keeps waiting. -/
theorem trigger_get_eq_stuck {s : Stock} {n : ℚ} {rest : List ℚ}
    (hp : s.pending = n :: rest) (hle : (Fl.fin n).le s.level = false) :
    s.trigger_get = s := by
  unfold Stock.trigger_get
  rw [hp]
  simp only [hle, Bool.false_eq_true, if_false]

/-- Unfolding equation: no outstanding order, nothing to deliver. -/
theorem deliver_eq_nil {s : Stock} (ho : s.orders = []) : s.deliver = s := by
  unfold Stock.deliver
  rw [ho]

/-- Unfolding equation: the oldest outstanding order is delivered. -/
theorem deliver_eq_cons {s : Stock} {n due : ℚ} {rest : List (ℚ × ℚ)}
    (ho : s.orders = (n, due) :: rest) :
    s.deliver =
      Stock.trigger_get
        { s with orders := rest
                 in_order := s.in_order.sub (Fl.fin n)
                 level := s.level.add (Fl.fin n) } := by
  unfold Stock.deliver
  rw [ho]

theorem good_trigger_get {C : ℚ} {s : Stock} (h : Good C s) : Good C s.trigger_get := by
  obtain ⟨hcap, ⟨hc, hhold⟩, ⟨l, io, hl, hio, hl0, hsum, hos⟩, hsaved, hop, hpp⟩ := h
  cases hp : s.pending with
  | nil =>
    rw [trigger_get_eq_nil hp]
    exact ⟨hcap, ⟨hc, hhold⟩, ⟨l, io, hl, hio, hl0, hsum, hos⟩, hsaved, hop, hpp⟩
  | cons n rest =>
    have hn : 0 < n := hpp n (by simp [hp])
    by_cases hle : ((Fl.fin n).le s.level : Bool) = true
    · have hnl : n ≤ l := by
        rw [hl] at hle
        simpa using hle
      rw [trigger_get_eq_fire hp hle]
      refine ⟨hcap, ⟨hc, hhold⟩, ⟨l - n, io + n, ?_, ?_, ?_, ?_, ?_⟩, ?_, ?_, ?_⟩
      · rw [hl]; simp
      · rw [hio]; simp
      · linarith
      · linarith
      · simp [hos]
      · rw [hsaved, hcap, hhold]
        simp
      · intro p hmem
        rcases List.mem_append.mp hmem with hmem | hmem
        · exact hop p hmem
        · simp only [List.mem_singleton] at hmem
          subst hmem
          exact hn
      · intro m hm
        exact hpp m (by simp [hp, hm])
    · rw [Bool.not_eq_true] at hle
      rw [trigger_get_eq_stuck hp hle]
      exact ⟨hcap, ⟨hc, hhold⟩, ⟨l, io, hl, hio, hl0, hsum, hos⟩, hsaved, hop, hpp⟩

theorem good_get {C : ℚ} {s : Stock} (h : Good C s) {n : ℚ} (hn : 0 < n) :
    Good C (s.get n) := by
  apply good_trigger_get
  obtain ⟨hcap, hhold, hlio, hsaved, hop, hpp⟩ := h
  refine ⟨hcap, hhold, hlio, hsaved, hop, ?_⟩
  intro m hm
  rcases List.mem_append.mp hm with hm | hm
  · exact hpp m hm
  · simp at hm
    rw [hm]
    exact hn

theorem good_deliver {C : ℚ} {s : Stock} (h : Good C s) : Good C s.deliver := by
  obtain ⟨hcap, ⟨hc, hhold⟩, ⟨l, io, hl, hio, hl0, hsum, hos⟩, hsaved, hop, hpp⟩ := h
  cases ho : s.orders with
  | nil =>
    rw [deliver_eq_nil ho]
    exact ⟨hcap, ⟨hc, hhold⟩, ⟨l, io, hl, hio, hl0, hsum, hos⟩, hsaved, hop, hpp⟩
  | cons p rest =>
    obtain ⟨n, due⟩ := p
    have hn : 0 < n := hop (n, due) (by simp [ho])
    have hrest : ∀ q ∈ rest, 0 < q.1 := fun q hq => hop q (by simp [ho, hq])
    have hios : io = n + orderSum rest := by simpa [ho] using hos
    rw [deliver_eq_cons ho]
    apply good_trigger_get
    refine ⟨hcap, ⟨hc, hhold⟩, ⟨l + n, io - n, ?_, ?_, ?_, ?_, ?_⟩, hsaved, hrest, hpp⟩
    · rw [hl]; simp
    · rw [hio]; simp
    · linarith
    · linarith
    · rw [hios]; ring

theorem good_advance {C : ℚ} {s : Stock} (h : Good C s) (dt : ℚ) :
    Good C (s.advance dt) := by
  obtain ⟨hcap, hhold, hlio, hsaved, hop, hpp⟩ := h
  exact ⟨hcap, hhold, hlio, hsaved, hop, hpp⟩

theorem good_step {C : ℚ} {s s' : Stock} (hstep : Stock.Step s s') (h : Good C s) :
    Good C s' := by
  cases hstep with
  | advance dt hdt => exact good_advance h dt
  | get n hn => exact good_get h hn
  | deliver n due rest ho hd hf => exact good_deliver h

theorem good_init (upc : Fl) (D : ℚ) (hc : ℚ) {C : ℚ} (hC : 0 ≤ C) :
    Good C (ComponentStock.init upc D (Fl.fin hc) (Fl.fin C)) := by
  refine ⟨rfl, ⟨hc, rfl⟩, ⟨C, 0, rfl, rfl, hC, by ring, by simp [ComponentStock.init]⟩,
    rfl, ?_, ?_⟩ <;> simp [ComponentStock.init]

theorem reach_good {C : ℚ} {s₀ s : Stock} (h : StockReach s₀ s) (h0 : Good C s₀) :
    Good C s := by
  induction h with
  | refl => exact h0
  | tail _ hstep ih => exact good_step hstep ih

/-- Every step leaves the constructor parameters of the stock unchanged. -/
theorem step_params {s s' : Stock} (hstep : Stock.Step s s') :
    s'.capacity = s.capacity ∧ s'.unit_purchase_costs = s.unit_purchase_costs ∧
    s'.delivery_time = s.delivery_time ∧ s'.unit_holding_costs = s.unit_holding_costs := by
  have htg : ∀ a : Stock, (a.trigger_get).capacity = a.capacity ∧
      (a.trigger_get).unit_purchase_costs = a.unit_purchase_costs ∧
      (a.trigger_get).delivery_time = a.delivery_time ∧
      (a.trigger_get).unit_holding_costs = a.unit_holding_costs := by
    intro a
    cases hp : a.pending with
    | nil => rw [trigger_get_eq_nil hp]; exact ⟨rfl, rfl, rfl, rfl⟩
    | cons n rest =>
      by_cases hle : ((Fl.fin n).le a.level : Bool) = true
      · rw [trigger_get_eq_fire hp hle]; exact ⟨rfl, rfl, rfl, rfl⟩
      · rw [Bool.not_eq_true] at hle
        rw [trigger_get_eq_stuck hp hle]; exact ⟨rfl, rfl, rfl, rfl⟩
  cases hstep with
  | advance dt hdt => exact ⟨rfl, rfl, rfl, rfl⟩
  | get n hn => exact htg _
  | deliver n due rest ho hd hf =>
    rw [deliver_eq_cons ho]
    exact htg _

theorem reach_params {s₀ s : Stock} (h : StockReach s₀ s) :
    s.capacity = s₀.capacity ∧ s.unit_purchase_costs = s₀.unit_purchase_costs ∧
    s.delivery_time = s₀.delivery_time ∧ s.unit_holding_costs = s₀.unit_holding_costs := by
  induction h with
  | refl => exact ⟨rfl, rfl, rfl, rfl⟩
  | tail _ hstep ih =>
    obtain ⟨h1, h2, h3, h4⟩ := step_params hstep
    obtain ⟨g1, g2, g3, g4⟩ := ih
    exact ⟨h1.trans g1, h2.trans g2, h3.trans g3, h4.trans g4⟩

/-- A quiet run is a single time shift. -/
theorem quiet_shift {s₀ s : Stock} (h : QuietReach s₀ s) :
    ∃ T : ℚ, 0 ≤ T ∧ s = s₀.advance T := by
  induction h with
  | refl => exact ⟨0, le_refl 0, by simp [Stock.advance]⟩
  | tail _ hstep ih =>
    obtain ⟨T, hT, rfl⟩ := ih
    obtain ⟨dt, hdt, rfl⟩ := hstep
    exact ⟨T + dt, by linarith, by simp [Stock.advance, add_assoc]⟩

/-- `BreakableComponent` (lines 91-111): specification of a wearing part.
`times_broken` is the class attribute of line 95. -/
structure BreakableComponent where
  name : String
  time_replacement : ℚ
  stock : Stock
  mean : ℚ
  replace_module : Bool
  times_broken : ℕ
deriving DecidableEq

/-- `BreakableComponent.__init__` (lines 97-111): when `replace_module` is
set, the constructor overwrites the `unit_holding_costs` of the stock object
passed in (lines 106-107). -/
def BreakableComponent.make (name : String) (time_replacement : ℚ) (stock : Stock)
    (mean : ℚ) (replace_module : Bool) : BreakableComponent :=
  { name := name
    time_replacement := time_replacement
    stock := if replace_module then { stock with unit_holding_costs := Fl.fin 0 } else stock
    mean := mean
    replace_module := replace_module
    times_broken := 0 }

/-- `Module` (lines 124-143): a container for breakable components with its
own stock. -/
structure Module where
  time_replacement : ℚ
  stock : Stock
  breakable_components : List BreakableComponent
deriving DecidableEq

/-- `Module.__init__` (lines 129-143): `stock_costs` scans the components for
one with `replace_module` set (lines 136-139); if none is found the module
stock object passed in gets its `unit_holding_costs` overwritten with 0
(lines 140-141). -/
def Module.make (time_replacement : ℚ) (stock : Stock)
    (breakable_components : List BreakableComponent) : Module :=
  let stock_costs :=
    breakable_components.foldl (fun b component => if component.replace_module then true else b)
      false
  { time_replacement := time_replacement
    stock := if stock_costs then stock else { stock with unit_holding_costs := Fl.fin 0 }
    breakable_components := breakable_components }

theorem module_make_stock_costs_false {cs : List BreakableComponent}
    (h : ∀ c ∈ cs, c.replace_module = false) :
    cs.foldl (fun b component => if component.replace_module then true else b) false = false := by
  induction cs with
  | nil => rfl
  | cons c cs ih =>
    have hc : c.replace_module = false := h c (by simp)
    simp only [List.foldl_cons, hc, Bool.false_eq_true, if_false]
    exact ih (fun d hd => h d (by simp [hd]))

/-- `sys.maxint` of the (Python 2) runtime the code targets: `2^63 - 1`. -/
def sys_maxint : ℝ := 2 ^ 63 - 1

/-- Python division `1.0 / mean`, which raises `ZeroDivisionError` when
`mean` is 0. -/
def one_div_mean (mean : ℚ) : Except Unit ℚ :=
  if mean = 0 then Except.error () else Except.ok (1 / mean)

/-- `random.expovariate(lambd)` computes `-log(1.0 - random()) / lambd`; the
uniform draw `u = random()`, a value in `[0, 1)`, is made an explicit
argument. -/
noncomputable def expovariate (lambd u : ℝ) : ℝ := -Real.log (1 - u) / lambd

/-- `BreakableComponent.time_to_failure` (lines 113-121): try
`random.expovariate(1.0 / self.mean)` and catch the `ZeroDivisionError` of a
zero mean, returning `sys.maxint` instead of propagating the fault. -/
noncomputable def BreakableComponent.time_to_failure (c : BreakableComponent) (u : ℝ) : ℝ :=
  match one_div_mean c.mean with
  | Except.ok lambd => expovariate (lambd : ℝ) u
  | Except.error _ => sys_maxint

/-- Python `min(list, key=lambda r: r[1])`: the first element with the least
key; a later element replaces the current best only when strictly smaller. -/
def pymin {α β : Type} [LinearOrder β] : List (α × β) → Option (α × β)
  | [] => none
  | x :: xs => some (xs.foldl (fun best y => if y.2 < best.2 then y else best) x)

/-- `Module.get_first_broken_component` (lines 157-159), with the uniform
draws of the per-component `time_to_failure` calls made explicit. -/
noncomputable def Module.get_first_broken_component (m : Module) (us : List ℝ) :
    Option (BreakableComponent × ℝ) :=
  pymin ((m.breakable_components.zip us).map fun cu => (cu.1, cu.1.time_to_failure cu.2))

theorem foldl_min_spec {α β : Type} [LinearOrder β] (xs : List (α × β)) (b : α × β) :
    (xs.foldl (fun best y => if y.2 < best.2 then y else best) b = b ∨
      xs.foldl (fun best y => if y.2 < best.2 then y else best) b ∈ xs) ∧
    (xs.foldl (fun best y => if y.2 < best.2 then y else best) b).2 ≤ b.2 ∧
    ∀ y ∈ xs, (xs.foldl (fun best y => if y.2 < best.2 then y else best) b).2 ≤ y.2 := by
  induction xs generalizing b with
  | nil => simp
  | cons y ys ih =>
    simp only [List.foldl_cons]
    by_cases hy : y.2 < b.2
    · rw [if_pos hy]
      obtain ⟨hm, hle, hall⟩ := ih y
      refine ⟨?_, ?_, ?_⟩
      · rcases hm with hm | hm
        · exact Or.inr (by simp [hm])
        · exact Or.inr (by simp [hm])
      · exact le_trans hle (le_of_lt hy)
      · intro z hz
        rcases List.mem_cons.mp hz with hz | hz
        · rw [hz]; exact hle
        · exact hall z hz
    · rw [if_neg hy]
      obtain ⟨hm, hle, hall⟩ := ih b
      refine ⟨?_, hle, ?_⟩
      · rcases hm with hm | hm
        · exact Or.inl hm
        · exact Or.inr (by simp [hm])
      · intro z hz
        rcases List.mem_cons.mp hz with hz | hz
        · rw [hz]; exact le_trans hle (le_of_not_lt hy)
        · exact hall z hz

theorem pymin_spec {α β : Type} [LinearOrder β] {l : List (α × β)} {x : α × β}
    (h : pymin l = some x) : x ∈ l ∧ ∀ y ∈ l, x.2 ≤ y.2 := by
  cases l with
  | nil => simp [pymin] at h
  | cons a as =>
    simp only [pymin, Option.some.injEq] at h
    obtain ⟨hm, hle, hall⟩ := foldl_min_spec as a
    subst h
    refine ⟨?_, ?_⟩
    · rcases hm with hm | hm
      · rw [hm]; exact List.mem_cons_self a as
      · exact List.mem_cons_of_mem a hm
    · intro y hy
      rcases List.mem_cons.mp hy with hy | hy
      · rw [hy]; exact hle
      · exact hall y hy

/-!
### One machine, one deterministic breakable component

The event sequence of `Module.run` (lines 145-159) and `Machine.repair`
(lines 184-203) for a factory with a single machine whose module holds one
breakable component, driven by the deterministic `time_to_failure` of
`tests/testsimulation.py` (`TestBreakableComponent` returns `self.mean`).
With one machine the crew request of lines 190-192, when there is a crew, is
granted at the same instant; with `number_maintenance_men = 0` the factory
leaves `maintenance_men = False` (lines 219, 233-234) and `Machine.repair`
skips the request (lines 197-201).
-/

structure MState where
  men : ℕ
  costs_per_unit_downtime : ℚ
  now : ℚ
  broken : Bool
  broken_since : ℚ
  downtime_costs : ℚ
  comp : BreakableComponent
  module_time_replacement : ℚ
  mod_stock : Stock
deriving DecidableEq

/-- The wait of `Module.run` line 153 for the deterministic failure draw,
`times_broken += 1` (line 154), and the entry of `Machine.repair`
(lines 188-189).  Deliveries of both stocks falling due meanwhile fire. -/
def MState.phaseFail (M : MState) : MState :=
  let t1 := M.now + M.comp.mean
  { M with
    now := t1
    comp :=
      { M.comp with
        stock := M.comp.stock.advanceTo t1
        times_broken := M.comp.times_broken + 1 }
    mod_stock := M.mod_stock.advanceTo t1
    broken := true
    broken_since := t1 }

/-- The replace branch of `Machine.repair` (lines 193-196 or 198-201) calling
`Module.replace` or `Component.replace` (lines 82-88), followed by the
downtime accounting of lines 202-203.  `none` models the machine blocking on
an empty stock (the withdrawn unit must be on hand for the repair to
proceed); deliveries falling due during the replacement fire. -/
def MState.doReplace (M : MState) : Option MState :=
  if M.comp.replace_module then
    if (Fl.fin 1).le M.mod_stock.level then
      let t2 := M.now + M.module_time_replacement
      some { M with
        now := t2
        mod_stock := (M.mod_stock.get 1).advanceTo t2
        comp := { M.comp with stock := M.comp.stock.advanceTo t2 }
        downtime_costs := M.downtime_costs + (t2 - M.broken_since) * M.costs_per_unit_downtime
        broken := false }
    else none
  else
    if (Fl.fin 1).le M.comp.stock.level then
      let t2 := M.now + M.comp.time_replacement
      some { M with
        now := t2
        comp := { M.comp with stock := (M.comp.stock.get 1).advanceTo t2 }
        mod_stock := M.mod_stock.advanceTo t2
        downtime_costs := M.downtime_costs + (t2 - M.broken_since) * M.costs_per_unit_downtime
        broken := false }
    else none

/-- Lines 190-201: with a crew the single machine acquires a unit at once and
replaces; with no crew (`maintenance_men = False`) the request is skipped and
the same replace runs directly. -/
def MState.repairStep (M : MState) : Option MState :=
  if M.men ≠ 0 then M.doReplace else M.doReplace

def MState.cycle (M : MState) : Option MState := M.phaseFail.repairStep

def MState.runCycles (M : MState) : ℕ → Option MState
  | 0 => some M
  | k + 1 => (M.runCycles k).bind MState.cycle

/-- The factory of the deterministic scenario: stocks built like
`ComponentStock(env, upc, D, hc, C)`, one `BreakableComponent` with
`replace_module = False`, a `Module` holding just it (which therefore zeroes
its own stock's `unit_holding_costs`, lines 136-141), one machine. -/
def machineScenario (men : ℕ) (cd m r D C upc hc Dm Cm upcm hcm trm : ℚ) : MState :=
  let comp := BreakableComponent.make "Part A" r
      (ComponentStock.init (Fl.fin upc) D (Fl.fin hc) (Fl.fin C)) m false
  let module := Module.make trm
      (ComponentStock.init (Fl.fin upcm) Dm (Fl.fin hcm) (Fl.fin Cm)) [comp]
  { men := men
    costs_per_unit_downtime := cd
    now := 0
    broken := false
    broken_since := 0
    downtime_costs := 0
    comp := comp
    module_time_replacement := module.time_replacement
    mod_stock := module.stock }

/-- The fully explicit machine state at a cycle boundary of the scenario:
clock at `t`, machine up, component stock full and quiet again. -/
def cleanMS (men : ℕ) (cd m r D C upc hc Dm Cm upcm trm : ℚ)
    (t la bs dtc pc : ℚ) (tb : ℕ) : MState :=
  { men := men
    costs_per_unit_downtime := cd
    now := t
    broken := false
    broken_since := bs
    downtime_costs := dtc
    comp :=
      { name := "Part A"
        time_replacement := r
        stock :=
          { capacity := Fl.fin C
            unit_purchase_costs := Fl.fin upc
            delivery_time := D
            unit_holding_costs := Fl.fin hc
            level := Fl.fin C
            in_order := Fl.fin 0
            purchase_costs := Fl.fin pc
            inventory_holding_costs_saved := Fl.fin 0
            last_order_at := la
            now := t
            orders := []
            pending := [] }
        mean := m
        replace_module := false
        times_broken := tb }
    module_time_replacement := trm
    mod_stock :=
      { capacity := Fl.fin Cm
        unit_purchase_costs := Fl.fin upcm
        delivery_time := Dm
        unit_holding_costs := Fl.fin 0
        level := Fl.fin Cm
        in_order := Fl.fin 0
        purchase_costs := Fl.fin 0
        inventory_holding_costs_saved := Fl.fin 0
        last_order_at := 0
        now := t
        orders := []
        pending := [] } }

theorem machineScenario_eq_clean (men : ℕ) (cd m r D C upc hc Dm Cm upcm hcm trm : ℚ) :
    machineScenario men cd m r D C upc hc Dm Cm upcm hcm trm =
      cleanMS men cd m r D C upc hc Dm Cm upcm trm 0 0 0 0 0 0 := by
  simp [machineScenario, cleanMS, BreakableComponent.make, Module.make, ComponentStock.init]

/-- One full failure-and-repair cycle from a clean boundary state: it takes
`m + r` time units, orders and receives one replacement part, and adds
`r * cd` downtime cost. -/
theorem cycle_cleanMS (men : ℕ) (cd m r D C upc hc Dm Cm upcm trm : ℚ)
    (t la bs dtc pc : ℚ) (tb : ℕ) (hC1 : 1 ≤ C) (hDr : D ≤ r) :
    (cleanMS men cd m r D C upc hc Dm Cm upcm trm t la bs dtc pc tb).cycle =
      some (cleanMS men cd m r D C upc hc Dm Cm upcm trm
        (t + m + r) (t + m) (t + m) (dtc + r * cd) (pc + upc) (tb + 1)) := by
  have hle1 : (Fl.fin 1).le (Fl.fin C) = true := by simp [hC1]
  have hdue : t + m + D ≤ t + m + r := by linarith
  have hfits : C - 1 + 1 ≤ C := by linarith
  simp only [MState.cycle, MState.phaseFail, MState.repairStep, MState.doReplace, cleanMS,
    Stock.advanceTo, Stock.advanceToF, Stock.get, Stock.trigger_get, Stock.deliver,
    ite_self, List.nil_append, List.length_nil, List.length_cons, Nat.add_zero,
    Nat.zero_add, hle1, hdue, hfits, if_true, Bool.false_eq_true, if_false,
    Fl.sub_fin_fin, Fl.add_fin_fin, Fl.mul_fin_fin, Fl.le_fin_fin, sub_self, zero_mul,
    mul_zero, add_zero, zero_add, sub_add_cancel, le_refl, decide_true_eq_true,
    decide_eq_true_eq, eq_self_iff_true]
  norm_num

/-- After `k` complete failure-and-repair cycles the scenario machine is back
at a clean boundary state: clock `k (m + r)`, machine up, `k` breakages, `k`
parts purchased, `k·r·cd` downtime cost, both stocks full and quiet. -/
theorem runCycles_clean (men : ℕ) (cd m r D C upc hc Dm Cm upcm hcm trm : ℚ)
    (hC1 : 1 ≤ C) (hDr : D ≤ r) (k : ℕ) :
    ∃ la bs : ℚ,
      (machineScenario men cd m r D C upc hc Dm Cm upcm hcm trm).runCycles k =
        some (cleanMS men cd m r D C upc hc Dm Cm upcm trm
          (k * (m + r)) la bs (k * (r * cd)) (k * upc) k) := by
  induction k with
  | zero =>
    refine ⟨0, 0, ?_⟩
    simp only [MState.runCycles, machineScenario_eq_clean]
    norm_num
  | succ k ih =>
    obtain ⟨la, bs, ih⟩ := ih
    refine ⟨k * (m + r) + m, k * (m + r) + m, ?_⟩
    simp only [MState.runCycles, ih, Option.some_bind]
    rw [cycle_cleanMS men cd m r D C upc hc Dm Cm upcm trm _ _ _ _ _ _ hC1 hDr]
    congr 1
    push_cast
    ring

/-- Advancing a stock with no outstanding order and no waiting get event only
moves its clock. -/
theorem advanceTo_empty {s : Stock} {t : ℚ} (ho : s.orders = []) (hp : s.pending = []) :
    s.advanceTo t = { s with now := t } := by
  have hl : s.orders.length + s.pending.length = 0 := by rw [ho, hp]; rfl
  unfold Stock.advanceTo
  rw [hl]
  rfl

/-!
### Repair traces of a machine fleet

For the policy frame claims only the stock operations of `Machine.repair`
(lines 184-203) matter: a repair whose broken component is `comps[i]`
withdraws one unit from the module stock when the component's
`replace_module` flag is set (lines 193-194 and 198-199) and one unit from
the component's own stock otherwise (lines 195-196 and 200-201).  The trace
relation allows repairs of any component in any order at any time — a
superset of the schedules the simulation can produce — so its invariants
hold in every run.
-/

structure PState where
  mod_stock : Stock
  comps : List BreakableComponent
deriving DecidableEq

def PState.ofModule (m : Module) : PState :=
  { mod_stock := m.stock, comps := m.breakable_components }

/-- The stock withdrawal performed by one repair of a machine whose failed
component is `comps[i]`. -/
def PState.repair (p : PState) (i : ℕ) : PState :=
  match p.comps.get? i with
  | none => p
  | some c =>
    if c.replace_module then { p with mod_stock := p.mod_stock.get 1 }
    else { p with comps := p.comps.set i { c with stock := c.stock.get 1 } }

def PState.advance (p : PState) (dt : ℚ) : PState :=
  { mod_stock := p.mod_stock.advanceTo (p.mod_stock.now + dt)
    comps := p.comps.map fun c => { c with stock := c.stock.advanceTo (c.stock.now + dt) } }

theorem prepair_eq_some {p : PState} {i : ℕ} {c : BreakableComponent}
    (hg : p.comps.get? i = some c) :
    p.repair i =
      if c.replace_module then { p with mod_stock := p.mod_stock.get 1 }
      else { p with comps := p.comps.set i { c with stock := c.stock.get 1 } } := by
  unfold PState.repair
  rw [hg]

theorem prepair_eq_none {p : PState} {i : ℕ} (hg : p.comps.get? i = none) :
    p.repair i = p := by
  unfold PState.repair
  rw [hg]

inductive PStep : PState → PState → Prop
  | advance (p : PState) (dt : ℚ) (h : 0 ≤ dt) : PStep p (p.advance dt)
  | repair (p : PState) (i : ℕ) (h : i < p.comps.length) : PStep p (p.repair i)

def PReach (p₀ p : PState) : Prop := Relation.ReflTransGen PStep p₀ p

/-- Invariant of a Policy-O fleet (every component keeps its own part): the
module stock is never touched. -/
def PolicyO (p : PState) : Prop :=
  (∀ c ∈ p.comps, c.replace_module = false) ∧
  p.mod_stock.purchase_costs = Fl.fin 0 ∧ p.mod_stock.orders = [] ∧ p.mod_stock.pending = []

theorem policyO_step {p p' : PState} (hstep : PStep p p') (h : PolicyO p) : PolicyO p' := by
  obtain ⟨hflags, hpc, ho, hp⟩ := h
  cases hstep with
  | advance dt hdt =>
    refine ⟨?_, ?_, ?_, ?_⟩
    · intro c hc
      simp only [PState.advance, List.mem_map] at hc
      obtain ⟨d, hd, rfl⟩ := hc
      exact hflags d hd
    · show ((p.mod_stock.advanceTo (p.mod_stock.now + dt))).purchase_costs = Fl.fin 0
      rw [advanceTo_empty ho hp]
      exact hpc
    · show ((p.mod_stock.advanceTo (p.mod_stock.now + dt))).orders = []
      rw [advanceTo_empty ho hp]
      exact ho
    · show ((p.mod_stock.advanceTo (p.mod_stock.now + dt))).pending = []
      rw [advanceTo_empty ho hp]
      exact hp
  | repair i hi =>
    cases hg : p.comps.get? i with
    | none =>
      rw [prepair_eq_none hg]
      exact ⟨hflags, hpc, ho, hp⟩
    | some c =>
      have hcmem : c ∈ p.comps := List.get?_mem hg
      have hcf : c.replace_module = false := hflags c hcmem
      rw [prepair_eq_some hg, if_neg (by simp [hcf])]
      refine ⟨?_, hpc, ho, hp⟩
      intro d hd
      rcases List.mem_or_eq_of_mem_set hd with hd | hd
      · exact hflags d hd
      · rw [hd]
        exact hcf

/-- Invariant of a Policy-AB fleet (every component escalates to the module):
no individual component stock is ever touched. -/
def PolicyAB (p : PState) : Prop :=
  (∀ c ∈ p.comps, c.replace_module = true) ∧
  ∀ c ∈ p.comps, c.stock.purchase_costs = Fl.fin 0 ∧ c.stock.orders = [] ∧ c.stock.pending = []

theorem policyAB_step {p p' : PState} (hstep : PStep p p') (h : PolicyAB p) : PolicyAB p' := by
  obtain ⟨hflags, hstocks⟩ := h
  cases hstep with
  | advance dt hdt =>
    constructor
    · intro c hc
      simp only [PState.advance, List.mem_map] at hc
      obtain ⟨d, hd, rfl⟩ := hc
      exact hflags d hd
    · intro c hc
      simp only [PState.advance, List.mem_map] at hc
      obtain ⟨d, hd, rfl⟩ := hc
      obtain ⟨h1, h2, h3⟩ := hstocks d hd
      constructor
      · show ((d.stock.advanceTo (d.stock.now + dt))).purchase_costs = Fl.fin 0
        rw [advanceTo_empty h2 h3]
        exact h1
      constructor
      · show ((d.stock.advanceTo (d.stock.now + dt))).orders = []
        rw [advanceTo_empty h2 h3]
        exact h2
      · show ((d.stock.advanceTo (d.stock.now + dt))).pending = []
        rw [advanceTo_empty h2 h3]
        exact h3
  | repair i hi =>
    cases hg : p.comps.get? i with
    | none =>
      rw [prepair_eq_none hg]
      exact ⟨hflags, hstocks⟩
    | some c =>
      have hcmem : c ∈ p.comps := List.get?_mem hg
      have hct : c.replace_module = true := hflags c hcmem
      rw [prepair_eq_some hg, if_pos hct]
      exact ⟨hflags, hstocks⟩

theorem preach_policyO {p₀ p : PState} (h : PReach p₀ p) (h0 : PolicyO p₀) : PolicyO p := by
  induction h with
  | refl => exact h0
  | tail _ hstep ih => exact policyO_step hstep ih

theorem preach_policyAB {p₀ p : PState} (h : PReach p₀ p) (h0 : PolicyAB p₀) : PolicyAB p := by
  induction h with
  | refl => exact h0
  | tail _ hstep ih => exact policyAB_step hstep ih

/-- A get request arriving at a stock with an empty queue and enough on hand
fires immediately. -/
theorem get_eq_fire {s : Stock} {n : ℚ} (hp : s.pending = [])
    (hle : (Fl.fin n).le s.level = true) :
    s.get n =
      { s with
        last_order_at := s.now
        inventory_holding_costs_saved :=
          s.inventory_holding_costs_saved.add
            ((((Fl.fin s.now).sub (Fl.fin s.now)).mul (s.capacity.sub (Fl.fin n))).mul
              s.unit_holding_costs)
        level := s.level.sub (Fl.fin n)
        in_order := s.in_order.add (Fl.fin n)
        purchase_costs := s.purchase_costs.add ((Fl.fin n).mul s.unit_purchase_costs)
        orders := s.orders ++ [(n, s.now + s.delivery_time)]
        pending := [] } := by
  unfold Stock.get
  rw [hp]
  exact trigger_get_eq_fire rfl hle

/-- A get request arriving at a stock with an empty queue but too little on
hand joins the queue and waits; nothing else changes and nothing fails. -/
theorem get_eq_queue {s : Stock} {n : ℚ} (hp : s.pending = [])
    (hle : (Fl.fin n).le s.level = false) :
    s.get n = { s with pending := [n] } := by
  unfold Stock.get
  rw [hp]
  exact trigger_get_eq_stuck rfl hle

/-- A delivery with no waiting get events: `in_order` falls and `level` rises
by exactly the delivered amount. -/
theorem deliver_eq_quiet {s : Stock} {n due : ℚ} {rest : List (ℚ × ℚ)}
    (ho : s.orders = (n, due) :: rest) (hp : s.pending = []) :
    s.deliver =
      { s with orders := rest
               in_order := s.in_order.sub (Fl.fin n)
               level := s.level.add (Fl.fin n) } := by
  rw [deliver_eq_cons ho]
  exact trigger_get_eq_nil hp

/-- With infinite capacity the container level stays at `+inf` forever. -/
theorem levelInf_step {s s' : Stock} (hstep : Stock.Step s s') (h : s.level = Fl.pinf) :
    s'.level = Fl.pinf := by
  have htg : ∀ a : Stock, a.level = Fl.pinf → (a.trigger_get).level = Fl.pinf := by
    intro a ha
    cases hp : a.pending with
    | nil => rw [trigger_get_eq_nil hp]; exact ha
    | cons n rest =>
      by_cases hle : ((Fl.fin n).le a.level : Bool) = true
      · rw [trigger_get_eq_fire hp hle]
        show (a.level.sub (Fl.fin n)) = Fl.pinf
        rw [ha]
        rfl
      · rw [Bool.not_eq_true] at hle
        rw [trigger_get_eq_stuck hp hle]
        exact ha
  cases hstep with
  | advance dt hdt => exact h
  | get n hn =>
    apply htg
    exact h
  | deliver n due rest ho hd hf =>
    rw [deliver_eq_cons ho]
    apply htg
    show (s.level.add (Fl.fin n)) = Fl.pinf
    rw [h]
    rfl

theorem reach_levelInf {s₀ s : Stock} (h : StockReach s₀ s) (h0 : s₀.level = Fl.pinf) :
    s.level = Fl.pinf := by
  induction h with
  | refl => exact h0
  | tail _ hstep ih => exact levelInf_step hstep ih

/-! ### The claims -/

/--
C1.  For every valid finite configuration and every reachable state of a
stock, `level + in_order ≤ capacity`; a withdrawal of `n` that fires
decrements the level by `n` and starts exactly one order of `n` units; a
delivery of an order of `n` units decreases `in_order` and increases `level`
by that same `n`.
-/
theorem C1_level_plus_in_order_le_capacity (upc D hc C n due : ℚ) (rest : List (ℚ × ℚ))
    (hC : 0 ≤ C) (s : Stock)
    (hs : StockReach (ComponentStock.init (Fl.fin upc) D (Fl.fin hc) (Fl.fin C)) s) :
    ((s.level.add s.in_order).le s.capacity = true) ∧
    (s.pending = [] → (Fl.fin n).le s.level = true →
      (s.get n).level = s.level.sub (Fl.fin n) ∧
      (s.get n).in_order = s.in_order.add (Fl.fin n) ∧
      (s.get n).orders = s.orders ++ [(n, s.now + s.delivery_time)]) ∧
    (s.orders = (n, due) :: rest → s.pending = [] →
      s.deliver.in_order = s.in_order.sub (Fl.fin n) ∧
      s.deliver.level = s.level.add (Fl.fin n)) := by
  obtain ⟨hcap, -, ⟨l, io, hl, hio, hl0, hsum, -⟩, -, -, -⟩ :=
    reach_good hs (good_init (Fl.fin upc) D hc hC)
  refine ⟨?_, ?_, ?_⟩
  · rw [hl, hio, hcap, Fl.add_fin_fin, Fl.le_fin_fin, hsum]
    simp
  · intro hp hle
    rw [get_eq_fire hp hle]
    exact ⟨rfl, rfl, rfl⟩
  · intro ho hp
    rw [deliver_eq_quiet ho hp]
    exact ⟨rfl, rfl⟩

theorem C1_witness :
    (((ComponentStock.init (Fl.fin 1) 1 (Fl.fin 1) (Fl.fin 1)).level.add
        (ComponentStock.init (Fl.fin 1) 1 (Fl.fin 1) (Fl.fin 1)).in_order).le
      (ComponentStock.init (Fl.fin 1) 1 (Fl.fin 1) (Fl.fin 1)).capacity = true) ∧
    ((ComponentStock.init (Fl.fin 1) 1 (Fl.fin 1) (Fl.fin 1)).pending = [] →
      (Fl.fin 1).le (ComponentStock.init (Fl.fin 1) 1 (Fl.fin 1) (Fl.fin 1)).level = true →
      (((ComponentStock.init (Fl.fin 1) 1 (Fl.fin 1) (Fl.fin 1)).get 1).level =
        (ComponentStock.init (Fl.fin 1) 1 (Fl.fin 1) (Fl.fin 1)).level.sub (Fl.fin 1)) ∧
      (((ComponentStock.init (Fl.fin 1) 1 (Fl.fin 1) (Fl.fin 1)).get 1).in_order =
        (ComponentStock.init (Fl.fin 1) 1 (Fl.fin 1) (Fl.fin 1)).in_order.add (Fl.fin 1)) ∧
      (((ComponentStock.init (Fl.fin 1) 1 (Fl.fin 1) (Fl.fin 1)).get 1).orders =
        (ComponentStock.init (Fl.fin 1) 1 (Fl.fin 1) (Fl.fin 1)).orders ++
          [(1, (ComponentStock.init (Fl.fin 1) 1 (Fl.fin 1) (Fl.fin 1)).now +
            (ComponentStock.init (Fl.fin 1) 1 (Fl.fin 1) (Fl.fin 1)).delivery_time)])) ∧
    ((ComponentStock.init (Fl.fin 1) 1 (Fl.fin 1) (Fl.fin 1)).orders = (1, 0) :: [] →
      (ComponentStock.init (Fl.fin 1) 1 (Fl.fin 1) (Fl.fin 1)).pending = [] →
      ((ComponentStock.init (Fl.fin 1) 1 (Fl.fin 1) (Fl.fin 1)).deliver.in_order =
        (ComponentStock.init (Fl.fin 1) 1 (Fl.fin 1) (Fl.fin 1)).in_order.sub (Fl.fin 1)) ∧
      ((ComponentStock.init (Fl.fin 1) 1 (Fl.fin 1) (Fl.fin 1)).deliver.level =
        (ComponentStock.init (Fl.fin 1) 1 (Fl.fin 1) (Fl.fin 1)).level.add (Fl.fin 1))) :=
  C1_level_plus_in_order_le_capacity 1 1 1 1 1 0 [] (by norm_num) _ Relation.ReflTransGen.refl

/--
C3.  A withdrawal contract proved on every reachable state of a
finite-capacity stock: on-hand plus in-transit is pinned at the order-up-to
level (so the same shortfall is never ordered twice); a get that cannot be
served queues and waits instead of failing; a get that can be served
decrements the level by `n` and schedules one order, whose amount `n` equals
`capacity - level - in_transit` measured after the decrement, due after the
fixed delivery time.
-/
theorem C3_withdraw_contract (upc D hc C n : ℚ) (hC : 0 ≤ C) (s : Stock)
    (hs : StockReach (ComponentStock.init (Fl.fin upc) D (Fl.fin hc) (Fl.fin C)) s) :
    (s.level.add s.in_order = s.capacity) ∧
    (s.pending = [] → (Fl.fin n).le s.level = false → s.get n = { s with pending := [n] }) ∧
    (s.pending = [] → (Fl.fin n).le s.level = true →
      (s.get n).level = s.level.sub (Fl.fin n) ∧
      (s.get n).orders = s.orders ++ [(n, s.now + s.delivery_time)] ∧
      (s.capacity.sub ((s.get n).level)).sub s.in_order = Fl.fin n) := by
  obtain ⟨hcap, -, ⟨l, io, hl, hio, hl0, hsum, -⟩, -, -, -⟩ :=
    reach_good hs (good_init (Fl.fin upc) D hc hC)
  refine ⟨?_, ?_, ?_⟩
  · rw [hl, hio, hcap, Fl.add_fin_fin, hsum]
  · intro hp hle
    exact get_eq_queue hp hle
  · intro hp hle
    rw [get_eq_fire hp hle]
    refine ⟨rfl, rfl, ?_⟩
    show (s.capacity.sub (s.level.sub (Fl.fin n))).sub s.in_order = Fl.fin n
    rw [hcap, hl, hio, Fl.sub_fin_fin, Fl.sub_fin_fin, Fl.sub_fin_fin]
    have : C - (l - n) - io = n := by linarith
    rw [this]

theorem C3_witness :
    ((ComponentStock.init (Fl.fin 1) 1 (Fl.fin 1) (Fl.fin 2)).level.add
      (ComponentStock.init (Fl.fin 1) 1 (Fl.fin 1) (Fl.fin 2)).in_order =
      (ComponentStock.init (Fl.fin 1) 1 (Fl.fin 1) (Fl.fin 2)).capacity) ∧
    ((ComponentStock.init (Fl.fin 1) 1 (Fl.fin 1) (Fl.fin 2)).pending = [] →
      (Fl.fin 1).le (ComponentStock.init (Fl.fin 1) 1 (Fl.fin 1) (Fl.fin 2)).level = false →
      (ComponentStock.init (Fl.fin 1) 1 (Fl.fin 1) (Fl.fin 2)).get 1 =
        { ComponentStock.init (Fl.fin 1) 1 (Fl.fin 1) (Fl.fin 2) with pending := [1] }) ∧
    ((ComponentStock.init (Fl.fin 1) 1 (Fl.fin 1) (Fl.fin 2)).pending = [] →
      (Fl.fin 1).le (ComponentStock.init (Fl.fin 1) 1 (Fl.fin 1) (Fl.fin 2)).level = true →
      (((ComponentStock.init (Fl.fin 1) 1 (Fl.fin 1) (Fl.fin 2)).get 1).level =
        (ComponentStock.init (Fl.fin 1) 1 (Fl.fin 1) (Fl.fin 2)).level.sub (Fl.fin 1)) ∧
      (((ComponentStock.init (Fl.fin 1) 1 (Fl.fin 1) (Fl.fin 2)).get 1).orders =
        (ComponentStock.init (Fl.fin 1) 1 (Fl.fin 1) (Fl.fin 2)).orders ++
          [(1, (ComponentStock.init (Fl.fin 1) 1 (Fl.fin 1) (Fl.fin 2)).now +
            (ComponentStock.init (Fl.fin 1) 1 (Fl.fin 1) (Fl.fin 2)).delivery_time)]) ∧
      (((ComponentStock.init (Fl.fin 1) 1 (Fl.fin 1) (Fl.fin 2)).capacity.sub
          (((ComponentStock.init (Fl.fin 1) 1 (Fl.fin 1) (Fl.fin 2)).get 1).level)).sub
        (ComponentStock.init (Fl.fin 1) 1 (Fl.fin 1) (Fl.fin 2)).in_order = Fl.fin 1)) :=
  C3_withdraw_contract 1 1 1 2 1 (by norm_num) _ Relation.ReflTransGen.refl

/--
C2 (amended).  A stock from which nothing is withdrawn accrues inventory
holding cost `unit_holding_costs × T` after running for `T` time units — the
property reads `env.now * unit_holding_costs` with no correction terms — and
not `capacity × unit_holding_costs × T`: the capacity does not enter.
-/
theorem C2_holding_cost_rate (upc D hc C : ℚ) (s : Stock)
    (hq : QuietReach (ComponentStock.init (Fl.fin upc) D (Fl.fin hc) (Fl.fin C)) s) :
    s.inventory_holding_costs = Fl.fin (s.now * hc) := by
  obtain ⟨T, hT, rfl⟩ := quiet_shift hq
  show Stock.inventory_holding_costs _ = _
  rw [Stock.inventory_holding_costs]
  norm_num [Stock.advance, ComponentStock.init]

theorem C2_witness :
    ((ComponentStock.init (Fl.fin 10) 10 (Fl.fin 3) (Fl.fin 100)).advance
      7).inventory_holding_costs =
      Fl.fin (((ComponentStock.init (Fl.fin 10) 10 (Fl.fin 3) (Fl.fin 100)).advance 7).now * 3) :=
  C2_holding_cost_rate 10 10 3 100 _
    (Relation.ReflTransGen.single ⟨7, by norm_num, rfl⟩)

/--
C2 counterexample.  A stock with capacity `C = 2` and `unit_holding_costs =
1`, run quietly for `T = 1` time unit, reports holding cost `1` — the value
of `unit_holding_costs × T` — whereas the claim `C × unit_holding_costs × T`
demands `2`.  (The repository's own `test_inventory` pins the same
`h × T` behaviour with capacity 100.)
-/
theorem C2_counterexample :
    QuietReach (ComponentStock.init (Fl.fin 10) 10 (Fl.fin 1) (Fl.fin 2))
      ((ComponentStock.init (Fl.fin 10) 10 (Fl.fin 1) (Fl.fin 2)).advance 1) ∧
    ((ComponentStock.init (Fl.fin 10) 10 (Fl.fin 1) (Fl.fin 2)).advance
      1).inventory_holding_costs = Fl.fin 1 ∧
    Fl.fin (1 : ℚ) ≠ Fl.fin ((2 : ℚ) * 1 * 1) := by
  refine ⟨Relation.ReflTransGen.single ⟨1, by norm_num, rfl⟩, ?_, ?_⟩
  · rw [Stock.inventory_holding_costs]
    norm_num [Stock.advance, ComponentStock.init]
  · simp

/--
C10 (amended).  For every reachable state of a finite-capacity stock the
`inventory_holding_costs_saved` accumulator is exactly 0 — the increment in
`_do_get` multiplies by `env.now - last_order_at` right after
`last_order_at` has been set to `env.now` — so the queryable holding cost is
`env.now × unit_holding_costs` minus the in-order correction term,
independent of the level history.  (With the default infinite capacity this
fails: the increment is `0 * inf = nan`; see the counterexample.)
-/
theorem C10_saved_zero_finite (upc D hc C io : ℚ) (hC : 0 ≤ C) (s : Stock)
    (hs : StockReach (ComponentStock.init (Fl.fin upc) D (Fl.fin hc) (Fl.fin C)) s) :
    s.inventory_holding_costs_saved = Fl.fin 0 ∧
    (s.in_order = Fl.fin 0 → s.inventory_holding_costs = Fl.fin (s.now * hc)) ∧
    (s.in_order = Fl.fin io → io ≠ 0 →
      s.inventory_holding_costs =
        Fl.fin (s.now * hc - (s.now - s.last_order_at) * (C - io) * hc)) := by
  obtain ⟨hcap, -, -, hsaved, -, -⟩ := reach_good hs (good_init (Fl.fin upc) D hc hC)
  obtain ⟨-, -, -, hhold⟩ := reach_params hs
  have hhold : s.unit_holding_costs = Fl.fin hc := hhold
  refine ⟨hsaved, ?_, ?_⟩
  · intro hio
    rw [Stock.inventory_holding_costs, hio, hsaved, hhold]
    norm_num
  · intro hio hione
    have htr : (Fl.fin io).truthy = true := by simp [hione]
    rw [Stock.inventory_holding_costs, hio, hsaved, hhold, hcap]
    simp only [htr, eq_self_iff_true, if_true, Fl.mul_fin_fin, Fl.sub_fin_fin]
    norm_num

theorem C10_witness :
    (0 : ℚ) ≤ 5 ∧
    ((ComponentStock.init (Fl.fin 1) 1 (Fl.fin 2) (Fl.fin 5)).inventory_holding_costs_saved =
      Fl.fin 0 ∧
    ((ComponentStock.init (Fl.fin 1) 1 (Fl.fin 2) (Fl.fin 5)).in_order = Fl.fin 0 →
      (ComponentStock.init (Fl.fin 1) 1 (Fl.fin 2) (Fl.fin 5)).inventory_holding_costs =
        Fl.fin ((ComponentStock.init (Fl.fin 1) 1 (Fl.fin 2) (Fl.fin 5)).now * 2)) ∧
    ((ComponentStock.init (Fl.fin 1) 1 (Fl.fin 2) (Fl.fin 5)).in_order = Fl.fin 3 → (3 : ℚ) ≠ 0 →
      (ComponentStock.init (Fl.fin 1) 1 (Fl.fin 2) (Fl.fin 5)).inventory_holding_costs =
        Fl.fin ((ComponentStock.init (Fl.fin 1) 1 (Fl.fin 2) (Fl.fin 5)).now * 2 -
          ((ComponentStock.init (Fl.fin 1) 1 (Fl.fin 2) (Fl.fin 5)).now -
            (ComponentStock.init (Fl.fin 1) 1 (Fl.fin 2) (Fl.fin 5)).last_order_at) *
            (5 - 3) * 2))) :=
  ⟨by norm_num,
    C10_saved_zero_finite 1 1 2 5 3 (by norm_num) _ Relation.ReflTransGen.refl⟩

/--
C10 counterexample.  With the default construction `capacity = float('inf')`,
one withdrawal at time 0 drives the saved accumulator to
`0 * (inf - 1) * h = nan`, not 0 — the state is reachable by a single get
step — so the claimed invariant fails for runs that use the default
capacity.
-/
theorem C10_counterexample :
    StockReach (ComponentStock.init (Fl.fin 1) 1 (Fl.fin 1))
      ((ComponentStock.init (Fl.fin 1) 1 (Fl.fin 1)).get 1) ∧
    ((ComponentStock.init (Fl.fin 1) 1 (Fl.fin 1)).get 1).inventory_holding_costs_saved =
      Fl.nan ∧
    Fl.nan ≠ Fl.fin 0 := by
  refine ⟨Relation.ReflTransGen.single (Stock.Step.get _ 1 (by norm_num)), ?_, ?_⟩
  · rw [get_eq_fire (s := ComponentStock.init (Fl.fin 1) 1 (Fl.fin 1)) (n := 1) rfl rfl]
    norm_num [ComponentStock.init]
  · simp

/--
C8 (amended).  A stock built with the default `capacity = float('inf')` is
indeed unlimited — the level stays `+inf`, so any demand is on hand — but a
replenishment order for the withdrawn amount is still triggered by every
withdrawal served off an empty queue (`_do_get` orders unconditionally), and
the inventory holding cost of the untouched stock reads
`env.now × unit_holding_costs`, not 0.
-/
theorem C8_infinite_capacity (upc D hc n : ℚ) (s : Stock)
    (hs : StockReach (ComponentStock.init (Fl.fin upc) D (Fl.fin hc)) s) :
    s.level = Fl.pinf ∧
    ((Fl.fin n).le s.level = true) ∧
    (s.pending = [] →
      (s.get n).in_order = s.in_order.add (Fl.fin n) ∧
      (s.get n).purchase_costs = s.purchase_costs.add ((Fl.fin n).mul s.unit_purchase_costs) ∧
      (s.get n).orders = s.orders ++ [(n, s.now + s.delivery_time)]) ∧
    (QuietReach (ComponentStock.init (Fl.fin upc) D (Fl.fin hc)) s →
      s.inventory_holding_costs = Fl.fin (s.now * hc)) := by
  have hlvl : s.level = Fl.pinf := reach_levelInf hs rfl
  have hle : (Fl.fin n).le s.level = true := by rw [hlvl]; rfl
  refine ⟨hlvl, hle, ?_, ?_⟩
  · intro hp
    rw [get_eq_fire hp hle]
    exact ⟨rfl, rfl, rfl⟩
  · intro hq
    obtain ⟨T, hT, rfl⟩ := quiet_shift hq
    show Stock.inventory_holding_costs _ = _
    rw [Stock.inventory_holding_costs]
    norm_num [Stock.advance, ComponentStock.init]

theorem C8_witness :
    ((ComponentStock.init (Fl.fin 1) 1 (Fl.fin 1)).level = Fl.pinf) ∧
    ((Fl.fin 1).le (ComponentStock.init (Fl.fin 1) 1 (Fl.fin 1)).level = true) ∧
    ((ComponentStock.init (Fl.fin 1) 1 (Fl.fin 1)).pending = [] →
      (((ComponentStock.init (Fl.fin 1) 1 (Fl.fin 1)).get 1).in_order =
        (ComponentStock.init (Fl.fin 1) 1 (Fl.fin 1)).in_order.add (Fl.fin 1)) ∧
      (((ComponentStock.init (Fl.fin 1) 1 (Fl.fin 1)).get 1).purchase_costs =
        (ComponentStock.init (Fl.fin 1) 1 (Fl.fin 1)).purchase_costs.add
          ((Fl.fin 1).mul (ComponentStock.init (Fl.fin 1) 1 (Fl.fin 1)).unit_purchase_costs)) ∧
      (((ComponentStock.init (Fl.fin 1) 1 (Fl.fin 1)).get 1).orders =
        (ComponentStock.init (Fl.fin 1) 1 (Fl.fin 1)).orders ++
          [(1, (ComponentStock.init (Fl.fin 1) 1 (Fl.fin 1)).now +
            (ComponentStock.init (Fl.fin 1) 1 (Fl.fin 1)).delivery_time)])) ∧
    (QuietReach (ComponentStock.init (Fl.fin 1) 1 (Fl.fin 1))
        (ComponentStock.init (Fl.fin 1) 1 (Fl.fin 1)) →
      (ComponentStock.init (Fl.fin 1) 1 (Fl.fin 1)).inventory_holding_costs =
        Fl.fin ((ComponentStock.init (Fl.fin 1) 1 (Fl.fin 1)).now * 1)) :=
  C8_infinite_capacity 1 1 1 1 _ Relation.ReflTransGen.refl

/--
C8 counterexample.  At the default infinite capacity, a withdrawal of one
unit at time 0 does trigger a replenishment order (`in_order` becomes 1 and
the purchase cost accrues), contradicting "no replenishment order is ever
triggered"; and after one quiet time unit the holding cost reads 1, not 0.
-/
theorem C8_counterexample :
    StockReach (ComponentStock.init (Fl.fin 1) 1 (Fl.fin 1))
      ((ComponentStock.init (Fl.fin 1) 1 (Fl.fin 1)).get 1) ∧
    ((ComponentStock.init (Fl.fin 1) 1 (Fl.fin 1)).get 1).in_order = Fl.fin 1 ∧
    Fl.fin (1 : ℚ) ≠ Fl.fin 0 ∧
    QuietReach (ComponentStock.init (Fl.fin 1) 1 (Fl.fin 1))
      ((ComponentStock.init (Fl.fin 1) 1 (Fl.fin 1)).advance 1) ∧
    ((ComponentStock.init (Fl.fin 1) 1 (Fl.fin 1)).advance 1).inventory_holding_costs =
      Fl.fin 1 := by
  refine ⟨Relation.ReflTransGen.single (Stock.Step.get _ 1 (by norm_num)), ?_, ?_,
    Relation.ReflTransGen.single ⟨1, by norm_num, rfl⟩, ?_⟩
  · rw [get_eq_fire (s := ComponentStock.init (Fl.fin 1) 1 (Fl.fin 1)) (n := 1) rfl rfl]
    norm_num [ComponentStock.init]
  · simp
  · rw [Stock.inventory_holding_costs]
    norm_num [Stock.advance, ComponentStock.init]

/--
C9.  Constructing a `BreakableComponent` with `replace_module = True`
overwrites the passed-in stock's `unit_holding_costs` with 0; constructing a
`Module` none of whose components escalates overwrites the module stock's
`unit_holding_costs` with 0; and a stock whose `unit_holding_costs` is 0 and
which is never withdrawn from (as those stocks are under the respective
policies) reports inventory holding cost 0 at every instant, whatever
holding cost the caller supplied.
-/
theorem C9_zeroed_holding_costs (name : String) (tr mean upc D hc trm : ℚ) (cap : Fl)
    (cs : List BreakableComponent) (hcs : ∀ c ∈ cs, c.replace_module = false)
    (s₀ s : Stock) (hq : QuietReach s₀ s) (hh : s₀.unit_holding_costs = Fl.fin 0)
    (hsv : s₀.inventory_holding_costs_saved = Fl.fin 0) (hio : s₀.in_order = Fl.fin 0) :
    (BreakableComponent.make name tr (ComponentStock.init (Fl.fin upc) D (Fl.fin hc) cap)
        mean true).stock.unit_holding_costs = Fl.fin 0 ∧
    (Module.make trm (ComponentStock.init (Fl.fin upc) D (Fl.fin hc) cap)
        cs).stock.unit_holding_costs = Fl.fin 0 ∧
    s.inventory_holding_costs = Fl.fin 0 := by
  refine ⟨rfl, ?_, ?_⟩
  · show (Module.make trm _ cs).stock.unit_holding_costs = Fl.fin 0
    unfold Module.make
    rw [module_make_stock_costs_false hcs]
    rfl
  · obtain ⟨T, hT, rfl⟩ := quiet_shift hq
    rw [Stock.inventory_holding_costs]
    have hio2 : (s₀.advance T).in_order = Fl.fin 0 := hio
    have hh2 : (s₀.advance T).unit_holding_costs = Fl.fin 0 := hh
    have hsv2 : (s₀.advance T).inventory_holding_costs_saved = Fl.fin 0 := hsv
    rw [hio2, hh2, hsv2]
    norm_num

theorem C9_witness :
    ((BreakableComponent.make "Part A" 1 (ComponentStock.init (Fl.fin 1) 1 (Fl.fin 7) (Fl.fin 1))
        4 true).stock.unit_holding_costs = Fl.fin 0) ∧
    ((Module.make 2 (ComponentStock.init (Fl.fin 1) 1 (Fl.fin 7) (Fl.fin 1))
        []).stock.unit_holding_costs = Fl.fin 0) ∧
    (ComponentStock.init (Fl.fin 1) 1 (Fl.fin 0) (Fl.fin 1)).inventory_holding_costs =
      Fl.fin 0 :=
  C9_zeroed_holding_costs "Part A" 1 4 1 1 7 2 (Fl.fin 1) []
    (by intro c hc; cases hc) _ _ Relation.ReflTransGen.refl rfl rfl rfl

/--
C7.  The deterministic single-component machine: after `k` complete cycles
the clock reads `k (m + r)`, the machine is up, the component broke `k`
times and total downtime cost is exactly `k · r · cd`; the next failure event
leaves the machine broken at time `k (m + r) + m`, and the following repair
completes at `k (m + r) + m + r` with one more `r · cd` of downtime cost.
(`1 ≤ C` and `D ≤ r` make the stock ample: every withdrawal is served
immediately.)
-/
theorem C7_deterministic_cycles (men : ℕ) (cd m r D C upc hc Dm Cm upcm hcm trm : ℚ)
    (k : ℕ) (hC1 : 1 ≤ C) (hDr : D ≤ r) :
    ∃ M, (machineScenario men cd m r D C upc hc Dm Cm upcm hcm trm).runCycles k = some M ∧
      M.now = k * (m + r) ∧ M.broken = false ∧ M.downtime_costs = k * (r * cd) ∧
      M.comp.times_broken = k ∧
      M.phaseFail.broken = true ∧ M.phaseFail.now = k * (m + r) + m ∧
      ∃ M2, M.phaseFail.repairStep = some M2 ∧ M2.broken = false ∧
        M2.now = k * (m + r) + m + r ∧ M2.downtime_costs = k * (r * cd) + r * cd := by
  obtain ⟨la, bs, heq⟩ := runCycles_clean men cd m r D C upc hc Dm Cm upcm hcm trm hC1 hDr k
  refine ⟨_, heq, rfl, rfl, rfl, rfl, rfl, rfl, ?_⟩
  refine ⟨_, cycle_cleanMS men cd m r D C upc hc Dm Cm upcm trm _ _ _ _ _ _ hC1 hDr,
    rfl, rfl, rfl⟩

theorem C7_witness :
    ∃ M, (machineScenario 0 10 4 2 1 1000 8 2 1 1 15 3 2).runCycles 10 = some M ∧
      M.now = (10 : ℕ) * (4 + 2) ∧ M.broken = false ∧
      M.downtime_costs = (10 : ℕ) * (2 * 10) ∧
      M.comp.times_broken = 10 ∧
      M.phaseFail.broken = true ∧ M.phaseFail.now = (10 : ℕ) * (4 + 2) + 4 ∧
      ∃ M2, M.phaseFail.repairStep = some M2 ∧ M2.broken = false ∧
        M2.now = (10 : ℕ) * (4 + 2) + 4 + 2 ∧
        M2.downtime_costs = (10 : ℕ) * (2 * 10) + 2 * 10 :=
  C7_deterministic_cycles 0 10 4 2 1 1000 8 2 1 1 15 3 2 10 (by norm_num) (by norm_num)

/--
C4 (amended).  With zero maintenance men and `replace_module = False`
(Policy O) under deterministic failures, the crew-acquisition step is skipped
and the run still progresses through every cycle (no deadlock or hang) — but
the failing component's stock does NOT keep purchase costs at 0: each repair
withdraws a part and orders a replacement, so after `k` cycles its purchase
costs are exactly `k × unit_purchase_costs`, while the module stock's
purchase costs stay 0, and the component stock's holding costs keep accruing
at `unit_holding_costs` per time unit.
-/
theorem C4_policyO_no_crew (cd m r D C upc hc Dm Cm upcm hcm trm : ℚ) (k : ℕ)
    (hC1 : 1 ≤ C) (hDr : D ≤ r) :
    ∃ M, (machineScenario 0 cd m r D C upc hc Dm Cm upcm hcm trm).runCycles k = some M ∧
      M.now = k * (m + r) ∧
      M.comp.stock.purchase_costs = Fl.fin (k * upc) ∧
      M.mod_stock.purchase_costs = Fl.fin 0 ∧
      M.comp.stock.inventory_holding_costs = Fl.fin (k * (m + r) * hc) := by
  obtain ⟨la, bs, heq⟩ := runCycles_clean 0 cd m r D C upc hc Dm Cm upcm hcm trm hC1 hDr k
  refine ⟨_, heq, rfl, rfl, rfl, ?_⟩
  rw [Stock.inventory_holding_costs]
  norm_num [cleanMS]

theorem C4_witness :
    ∃ M, (machineScenario 0 10 5 3 1 1000 8 2 1 1 15 3 2).runCycles 7 = some M ∧
      M.now = (7 : ℕ) * (5 + 3) ∧
      M.comp.stock.purchase_costs = Fl.fin ((7 : ℕ) * 8) ∧
      M.mod_stock.purchase_costs = Fl.fin 0 ∧
      M.comp.stock.inventory_holding_costs = Fl.fin ((7 : ℕ) * (5 + 3) * 2) :=
  C4_policyO_no_crew 10 5 3 1 1000 8 2 1 1 15 3 2 7 (by norm_num) (by norm_num)

/--
C4 counterexample.  In the zero-crew Policy-O deterministic scenario with
`unit_purchase_costs = 1`, already after the first complete repair cycle the
failing component's stock reports purchase costs 1, not the claimed 0.
-/
theorem C4_counterexample :
    (((machineScenario 0 1 1 1 1 1 1 1 1 1 1 1 1).runCycles 1).map
      (fun M => M.comp.stock.purchase_costs)) = some (Fl.fin 1) ∧
    Fl.fin (1 : ℚ) ≠ Fl.fin 0 := by
  obtain ⟨la, bs, heq⟩ :=
    runCycles_clean 0 1 1 1 1 1 1 1 1 1 1 1 1 (by norm_num) (by norm_num) 1
  rw [heq]
  constructor
  · norm_num [cleanMS]
  · simp

/--
C5.  `time_to_failure` returns a non-negative draw of the exponential
distribution with rate `1/mean`; for `mean = 0` the division raises a
`ZeroDivisionError` that is caught, and the effectively infinite sentinel
`sys.maxint` is returned instead, so whenever any other component draws a
finite time below the sentinel, the component selected as first to fail is
never one with `mean = 0`.
-/
theorem C5_time_to_failure (c c₀ : BreakableComponent) (u u₀ : ℝ) (m : Module)
    (us : List ℝ) (sel : BreakableComponent × ℝ)
    (hu0 : 0 ≤ u) (hu1 : u < 1) (hm : 0 ≤ c.mean) (hz : c₀.mean = 0)
    (hsel : m.get_first_broken_component us = some sel)
    (hwit : ∃ cu ∈ m.breakable_components.zip us,
      cu.1.time_to_failure cu.2 < sys_maxint) :
    0 ≤ c.time_to_failure u ∧
    one_div_mean c₀.mean = Except.error () ∧
    c₀.time_to_failure u₀ = sys_maxint ∧
    sel.2 < sys_maxint ∧ sel.1.mean ≠ 0 := by
  have hzero : ∀ (d : BreakableComponent) (v : ℝ), d.mean = 0 →
      d.time_to_failure v = sys_maxint := by
    intro d v hd
    simp [BreakableComponent.time_to_failure, one_div_mean, hd]
  refine ⟨?_, ?_, ?_, ?_⟩
  · by_cases hm0 : c.mean = 0
    · rw [hzero c u hm0]
      norm_num [sys_maxint]
    · have hmpos : (0 : ℚ) < c.mean := lt_of_le_of_ne hm (Ne.symm hm0)
      have hlam : (0 : ℝ) < ((1 / c.mean : ℚ) : ℝ) := by
        rw [Rat.cast_pos]
        positivity
      have hlog : Real.log (1 - u) ≤ 0 := Real.log_nonpos (by linarith) (by linarith)
      simp only [BreakableComponent.time_to_failure, one_div_mean, hm0, if_false,
        expovariate]
      exact div_nonneg (by linarith) (le_of_lt hlam)
  · simp [one_div_mean, hz]
  · exact hzero c₀ u₀ hz
  · unfold Module.get_first_broken_component at hsel
    obtain ⟨hmem, hmin⟩ := pymin_spec hsel
    obtain ⟨cu, hcu, hcult⟩ := hwit
    have hcmem :
        (cu.1, cu.1.time_to_failure cu.2) ∈
          (m.breakable_components.zip us).map
            (fun du => (du.1, du.1.time_to_failure du.2)) :=
      List.mem_map_of_mem _ hcu
    have h1 : sel.2 ≤ cu.1.time_to_failure cu.2 := hmin _ hcmem
    have hlt : sel.2 < sys_maxint := lt_of_le_of_lt h1 hcult
    refine ⟨hlt, ?_⟩
    intro hmean0
    obtain ⟨du, hdu, hfeq⟩ := List.mem_map.mp hmem
    have hs1 : du.1 = sel.1 := by rw [← hfeq]
    have hs2 : du.1.time_to_failure du.2 = sel.2 := by rw [← hfeq]
    rw [← hs2, hzero du.1 du.2 (by rw [hs1]; exact hmean0)] at hlt
    exact lt_irrefl _ hlt

def c5stock : Stock := ComponentStock.init (Fl.fin 8) 1 (Fl.fin 2) (Fl.fin 1)

def c5zero : BreakableComponent := BreakableComponent.make "Part Z" 1 c5stock 0 false

def c5one : BreakableComponent := BreakableComponent.make "Part A" 1 c5stock 1 false

def c5mod : Module := Module.make 2 c5stock [c5zero, c5one]

theorem C5_witness :
    0 ≤ c5one.time_to_failure 0 ∧
    one_div_mean c5zero.mean = Except.error () ∧
    c5zero.time_to_failure 0 = sys_maxint ∧
    ((c5one, (0 : ℝ)) : BreakableComponent × ℝ).2 < sys_maxint ∧
    ((c5one, (0 : ℝ)) : BreakableComponent × ℝ).1.mean ≠ 0 :=
  C5_time_to_failure c5one c5zero 0 0 c5mod [0, 0] (c5one, 0)
    le_rfl (by norm_num) (by norm_num [c5one, BreakableComponent.make]) rfl
    (by
      show c5mod.get_first_broken_component [0, 0] = some (c5one, 0)
      unfold Module.get_first_broken_component c5mod c5zero c5one Module.make
        BreakableComponent.make
      norm_num [pymin, BreakableComponent.time_to_failure, one_div_mean, expovariate,
        sys_maxint, Real.log_one])
    ⟨(c5one, 0),
      by
        unfold c5mod c5zero c5one Module.make BreakableComponent.make
        norm_num,
      by
        show c5one.time_to_failure 0 < sys_maxint
        unfold c5one BreakableComponent.make
        norm_num [BreakableComponent.time_to_failure, one_div_mean, expovariate,
          sys_maxint, Real.log_one]⟩

/--
C6.  Frame effect of the per-component policy flag: in every run in which
every breakable component has `replace_module = False` (Policy O), the module
stock's purchase costs stay 0 for the whole run; in every run in which every
breakable component has `replace_module = True` (Policy AB), every repair
withdraws from the module stock — leaving the component lists untouched —
and all individual component stocks keep purchase costs 0.
-/
theorem C6_policy_frame (p₀ p : PState) (i : ℕ) (c : BreakableComponent)
    (hreach : PReach p₀ p)
    (hmodpc : p₀.mod_stock.purchase_costs = Fl.fin 0)
    (hmodo : p₀.mod_stock.orders = []) (hmodp : p₀.mod_stock.pending = [])
    (hcstocks : ∀ d ∈ p₀.comps, d.stock.purchase_costs = Fl.fin 0 ∧
      d.stock.orders = [] ∧ d.stock.pending = [])
    (hg : p.comps.get? i = some c) :
    ((∀ d ∈ p₀.comps, d.replace_module = false) → p.mod_stock.purchase_costs = Fl.fin 0) ∧
    ((∀ d ∈ p₀.comps, d.replace_module = true) →
      (∀ d ∈ p.comps, d.stock.purchase_costs = Fl.fin 0) ∧
      (p.repair i).mod_stock = p.mod_stock.get 1 ∧ (p.repair i).comps = p.comps) := by
  constructor
  · intro hflags
    exact (preach_policyO hreach ⟨hflags, hmodpc, hmodo, hmodp⟩).2.1
  · intro hflags
    obtain ⟨hflagsP, hstocksP⟩ := preach_policyAB hreach ⟨hflags, hcstocks⟩
    have hct : c.replace_module = true := hflagsP c (List.get?_mem hg)
    rw [prepair_eq_some hg, if_pos hct]
    exact ⟨fun d hd => (hstocksP d hd).1, rfl, rfl⟩

def c6comp : BreakableComponent :=
  BreakableComponent.make "Part B" 1 (ComponentStock.init (Fl.fin 1) 1 (Fl.fin 1) (Fl.fin 1))
    1 true

def c6state : PState :=
  { mod_stock := ComponentStock.init (Fl.fin 15) 1 (Fl.fin 3) (Fl.fin 1)
    comps := [c6comp] }

theorem C6_witness :
    ((∀ d ∈ c6state.comps, d.replace_module = false) →
      c6state.mod_stock.purchase_costs = Fl.fin 0) ∧
    ((∀ d ∈ c6state.comps, d.replace_module = true) →
      (∀ d ∈ c6state.comps, d.stock.purchase_costs = Fl.fin 0) ∧
      (c6state.repair 0).mod_stock = c6state.mod_stock.get 1 ∧
      (c6state.repair 0).comps = c6state.comps) :=
  C6_policy_frame c6state c6state 0 c6comp Relation.ReflTransGen.refl rfl rfl rfl
    (by
      intro d hd
      rw [List.mem_singleton.mp hd]
      exact ⟨rfl, rfl, rfl⟩)
    rfl

end MachineSim
